import Mathlib

/-!
kvmtop: sampling-to-rate pipeline and key dispatch

A shallow embedding of `src/main.c`.

* `uint64_t` counters and keys are natural numbers; a well-formed sample keeps
  them below `2^64` and unsigned subtraction is taken modulo `2^64`.
* `pid_t` values are integers.
* `double` values are rationals (exact arithmetic).  A `double` division whose
  divisor is zero yields an IEEE infinity or NaN, which has no rational value:
  `fdiv` returns `none` there.
* `vec_t` is a list of samples; `data[i]` is `List` indexing.
-/

namespace Kvmtop

/-- The record `sample_t`: identity fields, six cumulative counters, six
derived rate fields and the command line. -/
structure sample_t where
  pid : Int
  tgid : Int
  key : Nat
  syscr : Nat
  syscw : Nat
  read_bytes : Nat
  write_bytes : Nat
  cpu_jiffies : Nat
  blkio_ticks : Nat
  cpu_pct : ℚ
  r_iops : ℚ
  w_iops : ℚ
  io_wait_ms : ℚ
  r_mib : ℚ
  w_mib : ℚ
  cmd : String
  deriving DecidableEq, Repr

/-- Number of values of a `uint64_t`. -/
def U64 : Nat := 2 ^ 64

/-- The six counters of a sample fit in a `uint64_t`. -/
def counters_in_range (s : sample_t) : Prop :=
  s.syscr < U64 ∧ s.syscw < U64 ∧ s.read_bytes < U64 ∧ s.write_bytes < U64 ∧
    s.cpu_jiffies < U64 ∧ s.blkio_ticks < U64

instance (s : sample_t) : Decidable (counters_in_range s) := by
  unfold counters_in_range; infer_instance

/-- The loop of `find_prev`: binary search of `data[lo..hi)` for `key`.  The
loop keeps `mid < hi <= len`, so the read of `data[mid]` is in bounds and the
`none` arm of the lookup is not reached from `find_prev`. -/
def find_prev_loop (data : List sample_t) (key : Nat) (lo hi : Nat) : Option sample_t :=
  if lo < hi then
    let mid := lo + (hi - lo) / 2
    match data[mid]? with
    | none => none
    | some s =>
      let k := s.key
      if k = key then some s
      else if k < key then find_prev_loop data key (mid + 1) hi
      else find_prev_loop data key lo mid
  else none
termination_by hi - lo
decreasing_by
  all_goals simp_wf
  all_goals omega

/-- The function `find_prev`: `lo = 0`, `hi = prev->len`; `none` is `NULL`. -/
def find_prev (prev : List sample_t) (key : Nat) : Option sample_t :=
  find_prev_loop prev key 0 prev.length

/-- The function `make_key`: the cast `(uint64_t)tid`. -/
def make_key (tid : Int) : Nat := (tid % (U64 : Int)).toNat

/-- A record as `collect_samples` sets it up before the counters are read:
zeroed, then `pid`, `tgid`, `key` and `cmd` filled in. -/
def blank_sample (tid pid : Int) (cmd : String) : sample_t :=
  { pid := tid, tgid := pid, key := make_key tid, syscr := 0, syscw := 0, read_bytes := 0,
    write_bytes := 0, cpu_jiffies := 0, blkio_ticks := 0, cpu_pct := 0, r_iops := 0,
    w_iops := 0, io_wait_ms := 0, r_mib := 0, w_mib := 0, cmd := cmd }

/-- Subtraction of two `uint64_t` values (wraps modulo `2^64`). -/
def u64_sub (a b : Nat) : Nat := (a + U64 - b % U64) % U64

/-- The six local deltas `d_cpu, d_scr, d_scw, d_rb, d_wb, d_blk` of the rate loop. -/
structure deltas where
  d_cpu : Nat
  d_scr : Nat
  d_scw : Nat
  d_rb : Nat
  d_wb : Nat
  d_blk : Nat
  deriving DecidableEq, Repr

/-- The delta block of the rate loop: all zero initially, overwritten by the
guarded differences when `find_prev` returned a record (`if (p)`). -/
def compute_deltas (c : sample_t) (p : Option sample_t) : deltas :=
  match p with
  | none => { d_cpu := 0, d_scr := 0, d_scw := 0, d_rb := 0, d_wb := 0, d_blk := 0 }
  | some p =>
    { d_cpu := if c.cpu_jiffies ≥ p.cpu_jiffies then u64_sub c.cpu_jiffies p.cpu_jiffies else 0
      d_scr := if c.syscr ≥ p.syscr then u64_sub c.syscr p.syscr else 0
      d_scw := if c.syscw ≥ p.syscw then u64_sub c.syscw p.syscw else 0
      d_rb := if c.read_bytes ≥ p.read_bytes then u64_sub c.read_bytes p.read_bytes else 0
      d_wb := if c.write_bytes ≥ p.write_bytes then u64_sub c.write_bytes p.write_bytes else 0
      d_blk := if c.blkio_ticks ≥ p.blkio_ticks then u64_sub c.blkio_ticks p.blkio_ticks else 0 }

/-- The delta of the contract of the rate engine, `max(0, c - p)` over the integers,
read as a rational; the deltas of `compute_deltas` are compared with it. -/
def spec_delta (c p : Nat) : ℚ := ((max 0 ((c : Int) - (p : Int)) : Int) : ℚ)

/-- Division of two `double` values in exact arithmetic; `none` when the divisor
is zero (the IEEE result is then an infinity or a NaN). -/
def fdiv (a b : ℚ) : Option ℚ := if b = 0 then none else some (a / b)

/-- The rate formulas of the loop body, applied to the deltas of one sample. -/
def apply_rates (c : sample_t) (d : deltas) (dt : ℚ) (hz : Int) : Option sample_t := do
  let cpu_pct ← fdiv ((d.d_cpu : ℚ) * 100) (dt * (hz : ℚ))
  let r_iops ← fdiv (d.d_scr : ℚ) dt
  let w_iops ← fdiv (d.d_scw : ℚ) dt
  let r_mib ← (fdiv (d.d_rb : ℚ) dt).bind (fun q => fdiv q 1048576)
  let w_mib ← (fdiv (d.d_wb : ℚ) dt).bind (fun q => fdiv q 1048576)
  let io_wait_ms ← fdiv ((d.d_blk : ℚ) * 1000) (hz : ℚ)
  pure { c with cpu_pct := cpu_pct, r_iops := r_iops, w_iops := w_iops,
                r_mib := r_mib, w_mib := w_mib, io_wait_ms := io_wait_ms }

/-- One iteration of the rate loop of `main` for the current sample `c`:
look up the previous record, compute the deltas, write the six rate fields. -/
def rate_step (prev : List sample_t) (dt : ℚ) (hz : Int) (c : sample_t) : Option sample_t :=
  apply_rates c (compute_deltas c (find_prev prev c.key)) dt hz

/-- The elapsed time of a cycle: `dt = t_curr - t_prev; if (dt <= 0) dt = interval`. -/
def elapsed_dt (interval t_prev t_curr : ℚ) : ℚ :=
  let dt := t_curr - t_prev
  if dt ≤ 0 then interval else dt

/-- The `-i` case of option parsing: a value `<= 0` makes `main` return 2. -/
def opt_interval (v : ℚ) : Except Int ℚ :=
  if v ≤ 0 then Except.error 2 else Except.ok v

/-- The comparator `cmp_key`. -/
def cmp_key (x y : sample_t) : Int :=
  (if x.key > y.key then 1 else 0) - (if x.key < y.key then 1 else 0)

/-- The comparator `cmp_pid_desc`. -/
def cmp_pid_desc (x y : sample_t) : Int :=
  (if x.pid < y.pid then 1 else 0) - (if x.pid > y.pid then 1 else 0)

/-- The comparator `cmp_cpu_desc`. -/
def cmp_cpu_desc (x y : sample_t) : Int :=
  (if x.cpu_pct < y.cpu_pct then 1 else 0) - (if x.cpu_pct > y.cpu_pct then 1 else 0)

/-- The comparator `cmp_riops_desc`. -/
def cmp_riops_desc (x y : sample_t) : Int :=
  (if x.r_iops < y.r_iops then 1 else 0) - (if x.r_iops > y.r_iops then 1 else 0)

/-- The comparator `cmp_wiops_desc`. -/
def cmp_wiops_desc (x y : sample_t) : Int :=
  (if x.w_iops < y.w_iops then 1 else 0) - (if x.w_iops > y.w_iops then 1 else 0)

/-- The comparator `cmp_rmib_desc`. -/
def cmp_rmib_desc (x y : sample_t) : Int :=
  (if x.r_mib < y.r_mib then 1 else 0) - (if x.r_mib > y.r_mib then 1 else 0)

/-- The comparator `cmp_wmib_desc`. -/
def cmp_wmib_desc (x y : sample_t) : Int :=
  (if x.w_mib < y.w_mib then 1 else 0) - (if x.w_mib > y.w_mib then 1 else 0)

/-- The nested comparator `cmp_tgid` of `aggregate_by_tgid`. -/
def cmp_tgid (x y : sample_t) : Int :=
  (if x.tgid > y.tgid then 1 else 0) - (if x.tgid < y.tgid then 1 else 0)

/-- A comparator the C library accepts: its sign is antisymmetric and the
order it induces is transitive. -/
def valid_cmp (cmp : sample_t → sample_t → Int) : Prop :=
  (∀ a b, cmp a b < 0 ↔ 0 < cmp b a) ∧
    (∀ a b c, cmp a b ≤ 0 → cmp b c ≤ 0 → cmp a c ≤ 0)

/-- The contract of the C library `qsort`: for an accepted comparator the
result is a rearrangement of the input in which no element is followed by one
that compares smaller.  The order of elements that compare equal is left open. -/
def qsort_contract (qsort : (sample_t → sample_t → Int) → List sample_t → List sample_t) :
    Prop :=
  ∀ cmp l, valid_cmp cmp →
    List.Perm (qsort cmp l) l ∧ List.Pairwise (fun a b => cmp a b ≤ 0) (qsort cmp l)

/-- Insertion of one element before the first element it does not exceed. -/
def qsort_insert (cmp : sample_t → sample_t → Int) (x : sample_t) :
    List sample_t → List sample_t
  | [] => [x]
  | y :: ys => if cmp x y ≤ 0 then x :: y :: ys else y :: qsort_insert cmp x ys

/-- One executable instance of `qsort` (insertion sort driven by the comparator). -/
def qsort_model (cmp : sample_t → sample_t → Int) : List sample_t → List sample_t
  | [] => []
  | x :: xs => qsort_insert cmp x (qsort_model cmp xs)

/-- The merge branch of `aggregate_by_tgid`: add the six rate fields of
`data[i]` into `data[write_idx]` and set its `pid` to its `tgid`. -/
def merge_into (w s : sample_t) : sample_t :=
  { w with cpu_pct := w.cpu_pct + s.cpu_pct, r_iops := w.r_iops + s.r_iops,
           w_iops := w.w_iops + s.w_iops, io_wait_ms := w.io_wait_ms + s.io_wait_ms,
           r_mib := w.r_mib + s.r_mib, w_mib := w.w_mib + s.w_mib, pid := w.tgid }

/-- Step 3 of `aggregate_by_tgid`, from the slot `data[write_idx] = w` over the
remaining records `data[i..]`: a record of the same `tgid` is merged into `w`;
another one closes `w` and opens the next slot with `pid` set to its `tgid`. -/
def merge_adjacent (w : sample_t) : List sample_t → List sample_t
  | [] => [w]
  | s :: rest =>
    if w.tgid = s.tgid then merge_adjacent (merge_into w s) rest
    else w :: merge_adjacent { s with pid := s.tgid } rest

/-- The function `aggregate_by_tgid`: copy, sort by `tgid`, merge neighbours. -/
def aggregate_by_tgid (qsort : (sample_t → sample_t → Int) → List sample_t → List sample_t)
    (src : List sample_t) : List sample_t :=
  match qsort cmp_tgid src with
  | [] => []
  | w :: rest => merge_adjacent w rest

/-- The enumeration `sort_col_t`. -/
inductive sort_col_t where
  | SORT_PID
  | SORT_CPU
  | SORT_RIOPS
  | SORT_WIOPS
  | SORT_RMIB
  | SORT_WMIB
  deriving DecidableEq, Repr

open sort_col_t

/-- The sort switch of the render step. -/
def render_sort (qsort : (sample_t → sample_t → Int) → List sample_t → List sample_t)
    (sort_col : sort_col_t) (view_list : List sample_t) : List sample_t :=
  match sort_col with
  | SORT_PID => qsort cmp_pid_desc view_list
  | SORT_CPU => qsort cmp_cpu_desc view_list
  | SORT_RIOPS => qsort cmp_riops_desc view_list
  | SORT_WIOPS => qsort cmp_wiops_desc view_list
  | SORT_RMIB => qsort cmp_rmib_desc view_list
  | SORT_WMIB => qsort cmp_wmib_desc view_list

/-- The value a sort column orders by (`pid` read as a rational). -/
def metric (sort_col : sort_col_t) (s : sample_t) : ℚ :=
  match sort_col with
  | SORT_PID => (s.pid : ℚ)
  | SORT_CPU => s.cpu_pct
  | SORT_RIOPS => s.r_iops
  | SORT_WIOPS => s.w_iops
  | SORT_RMIB => s.r_mib
  | SORT_WMIB => s.w_mib

/-- The variables of `main` that live across the inner loop. -/
structure loop_state where
  prev : List sample_t
  curr_raw : List sample_t
  curr_proc : List sample_t
  sort_col : sort_col_t
  show_tree : Bool
  dirty : Bool
  deriving DecidableEq, Repr

/-- Where control goes after one pass through the wait of the inner loop:
back to the top of the inner loop, out of it by `break` (the next sampling
cycle), or to `cleanup`. -/
inductive control where
  | stay (st : loop_state)
  | sampling (st : loop_state)
  | cleanup (st : loop_state)
  deriving DecidableEq, Repr

/-- The function `wait_for_input`, given what the terminal delivered within the
timeout: `some b` when `select` reported input and `read` stored the byte `b`,
`none` otherwise.  The byte is returned as an `int`; the fall-through returns 0. -/
def wait_for_input (delivered : Option Nat) : Int :=
  match delivered with
  | some b => ((b % 256 : Nat) : Int)
  | none => 0

/-- The key dispatch of the inner loop on the value `c` of `wait_for_input`.
Character codes: `q` 113, `Q` 81, `t` 116, `T` 84, digits `1` to `6` 49 to 54. -/
def key_dispatch (st : loop_state) (c : Int) : control :=
  if c > 0 then
    if c = 113 ∨ c = 81 then control.cleanup st
    else
      let st := if c = 116 ∨ c = 84 then { st with show_tree := !st.show_tree, dirty := true } else st
      let st := if c = 49 ∨ c = 1 then { st with sort_col := SORT_PID, dirty := true } else st
      let st := if c = 50 ∨ c = 2 then { st with sort_col := SORT_CPU, dirty := true } else st
      let st := if c = 51 ∨ c = 3 then { st with sort_col := SORT_RIOPS, dirty := true } else st
      let st := if c = 52 ∨ c = 4 then { st with sort_col := SORT_WIOPS, dirty := true } else st
      let st := if c = 53 ∨ c = 5 then { st with sort_col := SORT_RMIB, dirty := true } else st
      let st := if c = 54 ∨ c = 6 then { st with sort_col := SORT_WMIB, dirty := true } else st
      control.stay st
  else control.sampling st

/-- The tail of one inner-loop iteration, after the redraw: measure the
remaining time, leave by `break` when none is left, otherwise wait for one key
and dispatch it. -/
def idle_wait (st : loop_state) (remain : ℚ) (delivered : Option Nat) : control :=
  if remain ≤ 0 then control.sampling st
  else key_dispatch st (wait_for_input delivered)

/-- A previous store of two threads of process 100, ordered by key. -/
def demo_prev : List sample_t :=
  [{ blank_sample 10 100 "vm" with syscr := 7, cpu_jiffies := 50 },
   { blank_sample 11 100 "vm" with cpu_jiffies := 5 }]

/-- The record of thread 10 in `demo_prev`. -/
def demo_p : sample_t := { blank_sample 10 100 "vm" with syscr := 7, cpu_jiffies := 50 }

/-- A current sample of thread 10: `syscr` fell from 7 to 3, `cpu_jiffies` rose
by 50 and `read_bytes` rose from 0 to 1048576. -/
def demo_curr : sample_t :=
  { blank_sample 10 100 "vm" with syscr := 3, read_bytes := 1048576, cpu_jiffies := 100 }

/-- A current sample of a thread 12 that `demo_prev` does not know. -/
def demo_new : sample_t := { blank_sample 12 100 "vm" with syscr := 9, cpu_jiffies := 30 }

/-- Three threads of two processes with CPU values 5, 3 and 1. -/
def demo_threads : List sample_t :=
  [{ blank_sample 10 100 "" with cpu_pct := 5 }, { blank_sample 11 100 "" with cpu_pct := 3 },
   { blank_sample 20 200 "" with cpu_pct := 1 }]

/-- A process list with CPU values 1, 9 and 5. -/
def demo_view : List sample_t :=
  [{ blank_sample 1 1 "" with cpu_pct := 1 }, { blank_sample 2 2 "" with cpu_pct := 9 },
   { blank_sample 3 3 "" with cpu_pct := 5 }]

/-- The loop variables as `main` has them when the first wait begins. -/
def demo_state : loop_state :=
  { prev := demo_prev, curr_raw := [demo_curr], curr_proc := [demo_curr],
    sort_col := SORT_CPU, show_tree := false, dirty := false }

/-- The redraw at the top of a pass of the inner loop: when `dirty`, sort the
process list by the active column and clear the flag (the printing is left
out). -/
def redraw (qsort : (sample_t → sample_t → Int) → List sample_t → List sample_t)
    (st : loop_state) : loop_state :=
  if st.dirty then
    { st with curr_proc := render_sort qsort st.sort_col st.curr_proc, dirty := false }
  else st

/-- How the inner loop is left: by `break` (time is up or the wait timed out)
or by `goto cleanup`. -/
inductive inner_end where
  | timer (st : loop_state)
  | quit (st : loop_state)
  deriving DecidableEq, Repr

/-- The inner `while (1)` of `main`, run over what its successive passes
observe: the remaining time and, when some is left, what the terminal
delivered.  A pass beyond the end of the list finds no time remaining. -/
def inner_loop (qsort : (sample_t → sample_t → Int) → List sample_t → List sample_t) :
    loop_state → List (ℚ × Option Nat) → inner_end
  | st, [] => inner_end.timer (redraw qsort st)
  | st, (remain, delivered) :: rest =>
    match idle_wait (redraw qsort st) remain delivered with
    | control.stay st1 => inner_loop qsort st1 rest
    | control.sampling st1 => inner_end.timer st1
    | control.cleanup st1 => inner_end.quit st1

/-- The rate loop of `main` over the current store: every record is looked up
in `prev` with `find_prev` and gets its six rate fields written. -/
def rate_pass (prev : List sample_t) (dt : ℚ) (hz : Int) :
    List sample_t → Option (List sample_t)
  | [] => some []
  | c :: rest =>
    match rate_step prev dt hz c with
    | none => none
    | some c1 =>
      match rate_pass prev dt hz rest with
      | none => none
      | some rated => some (c1 :: rated)

/-- What one cycle of the outer loop receives from outside: the result of
`collect_samples` (`none` when it fails), the clock reading `t_curr` and the
observations of the inner loop. -/
structure cycle_input where
  collected : Option (List sample_t)
  t_curr : ℚ
  events : List (ℚ × Option Nat)
  deriving DecidableEq, Repr

/-- How one cycle of the outer loop ends: at the top of the loop again with
new loop variables and `t_prev`, or out of the loop (`break` or `cleanup`). -/
inductive cycle_result where
  | next (st : loop_state) (t_prev : ℚ)
  | stop (st : loop_state)
  deriving DecidableEq, Repr

/-- The start of `main` after a successful first `collect_samples`: `prev` is
sorted with `cmp_key`, the clock is read, the sort column is `SORT_CPU`. -/
def main_init (qsort : (sample_t → sample_t → Int) → List sample_t → List sample_t)
    (collected : List sample_t) (t0 : ℚ) : loop_state × ℚ :=
  ({ prev := qsort cmp_key collected, curr_raw := [], curr_proc := [],
     sort_col := SORT_CPU, show_tree := false, dirty := false }, t0)

/-- One cycle of the outer `while (1)` of `main`: collect, compute `dt`, run
the rate loop against `prev`, aggregate, run the inner loop, then sort the
current store with `cmp_key` and hand it over as `prev`.  The result is `none`
when a rate has no exact value (a zero divisor). -/
def main_cycle (qsort : (sample_t → sample_t → Int) → List sample_t → List sample_t)
    (interval : ℚ) (hz : Int) (st : loop_state) (t_prev : ℚ) (i : cycle_input) :
    Option cycle_result :=
  match i.collected with
  | none => some (cycle_result.stop { st with curr_raw := [] })
  | some raw =>
    let dt := elapsed_dt interval t_prev i.t_curr
    match rate_pass st.prev dt hz raw with
    | none => none
    | some rated =>
      match inner_loop qsort
          { st with curr_raw := rated, curr_proc := aggregate_by_tgid qsort rated, dirty := true }
          i.events with
      | inner_end.quit st2 => some (cycle_result.stop st2)
      | inner_end.timer st2 =>
        some (cycle_result.next { st2 with prev := qsort cmp_key st2.curr_raw, curr_raw := [] }
          i.t_curr)

/-- The outer loop of `main` over the inputs of its successive cycles, from the
loop variables `st` and `t_prev` at the top of the loop. -/
def main_run (qsort : (sample_t → sample_t → Int) → List sample_t → List sample_t)
    (interval : ℚ) (hz : Int) : loop_state → ℚ → List cycle_input → Option cycle_result
  | st, t_prev, [] => some (cycle_result.next st t_prev)
  | st, t_prev, i :: rest =>
    match main_cycle qsort interval hz st t_prev i with
    | some (cycle_result.next st1 t1) => main_run qsort interval hz st1 t1 rest
    | r => r

/-- The loop variables a `control` value carries. -/
def control.state : control → loop_state
  | control.stay st => st
  | control.sampling st => st
  | control.cleanup st => st

/-- The loop variables an `inner_end` value carries. -/
def inner_end.state : inner_end → loop_state
  | inner_end.timer st => st
  | inner_end.quit st => st

/-- A first collection of two threads, not in key order. -/
def demo_collected : List sample_t :=
  [{ blank_sample 11 100 "vm" with cpu_jiffies := 5 },
   { blank_sample 10 100 "vm" with syscr := 7, cpu_jiffies := 50 }]

/-- The input of a cycle: thread 12 is collected ahead of thread 10, the clock
reads 2, the key `1` arrives with 3 seconds left and then the time runs out. -/
def demo_cycle : cycle_input :=
  { collected := some [demo_new, demo_curr], t_curr := 2, events := [(3, some 49), (0, none)] }

/-! ## Theorems -/

/-- Elements of a key-ordered list at increasing positions have increasing keys. -/
theorem sorted_getElem_le {data : List sample_t}
    (hs : data.Pairwise (fun a b => a.key ≤ b.key)) {i j : Nat} {a b : sample_t}
    (hij : i < j) (ha : data[i]? = some a) (hb : data[j]? = some b) : a.key ≤ b.key := by
  rw [List.pairwise_iff_getElem] at hs
  obtain ⟨hi, rfl⟩ := List.getElem?_eq_some.mp ha
  obtain ⟨hj, rfl⟩ := List.getElem?_eq_some.mp hb
  exact hs i j hi hj hij

/-- A record returned by the search loop carries the searched key and comes
from the store. -/
theorem find_prev_loop_sound (data : List sample_t) (key : Nat) :
    ∀ (n lo hi : Nat), hi - lo = n → ∀ r, find_prev_loop data key lo hi = some r →
      r.key = key ∧ r ∈ data := by
  intro n
  induction n using Nat.strong_induction_on with
  | _ n ih =>
    intro lo hi hn r hr
    rw [find_prev_loop] at hr
    split at hr
    · rename_i hlt
      simp only at hr
      split at hr
      · exact absurd hr (by simp)
      · rename_i s hs
        split at hr
        · rename_i hk
          have : s = r := by simpa using hr
          subst this
          obtain ⟨hb, hget⟩ := List.getElem?_eq_some.mp hs
          exact ⟨hk, hget ▸ List.getElem_mem hb⟩
        · split at hr
          · exact ih (hi - (lo + (hi - lo) / 2 + 1)) (by omega) _ _ rfl r hr
          · exact ih (lo + (hi - lo) / 2 - lo) (by omega) _ _ rfl r hr
    · exact absurd hr (by simp)

/-- On a key-ordered store, when every record left of `lo` has a smaller key and
every record from `hi` on has a larger key, the loop finds the key if it occurs. -/
theorem find_prev_loop_complete (data : List sample_t) (key : Nat)
    (hs : data.Pairwise (fun a b => a.key ≤ b.key)) :
    ∀ (n lo hi : Nat), hi - lo = n → hi ≤ data.length →
      (∀ i s, i < lo → data[i]? = some s → s.key < key) →
      (∀ i s, hi ≤ i → data[i]? = some s → key < s.key) →
      (∃ s ∈ data, s.key = key) → ∃ r, find_prev_loop data key lo hi = some r := by
  intro n
  induction n using Nat.strong_induction_on with
  | _ n ih =>
    intro lo hi hn hlen hlo hhi hex
    rw [find_prev_loop]
    split
    · rename_i hlt
      simp only
      have hmid : lo + (hi - lo) / 2 < data.length := by omega
      rw [List.getElem?_eq_getElem hmid]
      simp only
      split
      · exact ⟨_, rfl⟩
      · rename_i hne
        split
        · rename_i hk
          refine ih (hi - (lo + (hi - lo) / 2 + 1)) (by omega) _ _ rfl hlen ?_ hhi hex
          intro i s hi1 hsome
          by_cases h : i = lo + (hi - lo) / 2
          · subst h
            rw [List.getElem?_eq_getElem hmid] at hsome
            cases hsome
            exact hk
          · have := sorted_getElem_le hs (show i < lo + (hi - lo) / 2 by omega) hsome
              (List.getElem?_eq_getElem hmid)
            omega
        · rename_i hk
          refine ih (lo + (hi - lo) / 2 - lo) (by omega) _ _ rfl (by omega) hlo ?_ hex
          intro i s hi1 hsome
          by_cases h : i = lo + (hi - lo) / 2
          · subst h
            rw [List.getElem?_eq_getElem hmid] at hsome
            cases hsome
            omega
          · have := sorted_getElem_le hs (show lo + (hi - lo) / 2 < i by omega)
              (List.getElem?_eq_getElem hmid) hsome
            omega
    · rename_i hge
      exfalso
      obtain ⟨s, hmem, hk⟩ := hex
      obtain ⟨i, hi1, hget⟩ := List.getElem_of_mem hmem
      have hsome : data[i]? = some s := by rw [List.getElem?_eq_getElem hi1, hget]
      by_cases h : i < lo
      · have := hlo i s h hsome
        omega
      · have := hhi i s (by omega) hsome
        omega

/-- A record returned by `find_prev` carries the searched key and is in the store. -/
theorem find_prev_sound {prev : List sample_t} {key : Nat} {r : sample_t}
    (h : find_prev prev key = some r) : r.key = key ∧ r ∈ prev :=
  find_prev_loop_sound prev key _ 0 prev.length rfl r h

/-- On a key-ordered store `find_prev` finds a key that occurs. -/
theorem find_prev_complete {prev : List sample_t} {key : Nat}
    (hs : prev.Pairwise (fun a b => a.key ≤ b.key)) (hex : ∃ s ∈ prev, s.key = key) :
    ∃ r, find_prev prev key = some r :=
  find_prev_loop_complete prev key hs _ 0 prev.length rfl (le_refl _)
    (fun i s h _ => absurd h (Nat.not_lt_zero i))
    (fun i s h hsome => by
      have := (List.getElem?_eq_some.mp hsome).1
      omega) hex

/-- Sign of a descending three-way comparison: not positive exactly when the
second value does not exceed the first. -/
theorem desc_sign_le {α : Type} [LinearOrder α] (a b : α) :
    ((if a < b then (1 : Int) else 0) - (if a > b then 1 else 0) ≤ 0) ↔ b ≤ a := by
  rcases lt_trichotomy a b with h | h | h
  · have h2 : ¬ a > b := not_lt.mpr (le_of_lt h)
    simp [h, h2]
  · subst h
    simp
  · have h2 : ¬ a < b := not_lt.mpr (le_of_lt h)
    simp [h, h2, le_of_lt h]

/-- Sign of a descending three-way comparison: negative exactly when the first
value is the larger one. -/
theorem desc_sign_neg {α : Type} [LinearOrder α] (a b : α) :
    ((if a < b then (1 : Int) else 0) - (if a > b then 1 else 0) < 0) ↔ b < a := by
  rcases lt_trichotomy a b with h | h | h
  · have h2 : ¬ a > b := not_lt.mpr (le_of_lt h)
    simp [h, h2, not_lt.mpr (le_of_lt h)]
  · subst h
    simp
  · have h2 : ¬ a < b := not_lt.mpr (le_of_lt h)
    simp [h, h2]

/-- Sign of a descending three-way comparison: positive exactly when the first
value is the smaller one. -/
theorem desc_sign_pos {α : Type} [LinearOrder α] (a b : α) :
    (0 < (if a < b then (1 : Int) else 0) - (if a > b then 1 else 0)) ↔ a < b := by
  rcases lt_trichotomy a b with h | h | h
  · have h2 : ¬ a > b := not_lt.mpr (le_of_lt h)
    simp [h, h2]
  · subst h
    simp
  · have h2 : ¬ a < b := not_lt.mpr (le_of_lt h)
    simp [h, h2]

/-- A comparator that is the descending three-way comparison of a linearly
ordered field is accepted by `qsort`. -/
theorem valid_cmp_of_desc {α : Type} [LinearOrder α] (f : sample_t → α)
    (cmp : sample_t → sample_t → Int)
    (h : ∀ x y, cmp x y = (if f x < f y then (1 : Int) else 0) - (if f x > f y then 1 else 0)) :
    valid_cmp cmp := by
  constructor
  · intro a b
    rw [h a b, h b a, desc_sign_neg, desc_sign_pos]
  · intro a b c hab hbc
    rw [h, desc_sign_le] at hab hbc ⊢
    exact le_trans hbc hab

theorem cmp_tgid_le (x y : sample_t) : cmp_tgid x y ≤ 0 ↔ x.tgid ≤ y.tgid := by
  unfold cmp_tgid
  exact desc_sign_le y.tgid x.tgid

theorem cmp_key_le (x y : sample_t) : cmp_key x y ≤ 0 ↔ x.key ≤ y.key := by
  unfold cmp_key
  exact desc_sign_le y.key x.key

theorem valid_cmp_tgid : valid_cmp cmp_tgid := by
  constructor
  · intro a b
    unfold cmp_tgid
    rw [desc_sign_neg b.tgid a.tgid, desc_sign_pos a.tgid b.tgid]
  · intro a b c hab hbc
    rw [cmp_tgid_le] at hab hbc ⊢
    exact le_trans hab hbc

theorem valid_cmp_key : valid_cmp cmp_key := by
  constructor
  · intro a b
    unfold cmp_key
    rw [desc_sign_neg b.key a.key, desc_sign_pos a.key b.key]
  · intro a b c hab hbc
    rw [cmp_key_le] at hab hbc ⊢
    exact le_trans hab hbc

theorem qsort_insert_perm (cmp : sample_t → sample_t → Int) (x : sample_t) :
    ∀ l, List.Perm (qsort_insert cmp x l) (x :: l)
  | [] => List.Perm.refl _
  | y :: ys => by
    unfold qsort_insert
    split
    · exact List.Perm.refl _
    · exact ((qsort_insert_perm cmp x ys).cons y).trans (List.Perm.swap x y ys)

theorem qsort_insert_sorted (cmp : sample_t → sample_t → Int) (hv : valid_cmp cmp)
    (x : sample_t) :
    ∀ l, List.Pairwise (fun a b => cmp a b ≤ 0) l →
      List.Pairwise (fun a b => cmp a b ≤ 0) (qsort_insert cmp x l)
  | [], _ => by simp [qsort_insert]
  | y :: ys, hl => by
    unfold qsort_insert
    rw [List.pairwise_cons] at hl
    split
    · rename_i hxy
      refine List.Pairwise.cons ?_ (List.Pairwise.cons hl.1 hl.2)
      intro b hb
      rcases List.mem_cons.mp hb with rfl | hb
      · exact hxy
      · exact hv.2 _ _ _ hxy (hl.1 b hb)
    · rename_i hxy
      refine List.Pairwise.cons ?_ (qsort_insert_sorted cmp hv x ys hl.2)
      intro b hb
      rcases List.mem_cons.mp ((qsort_insert_perm cmp x ys).subset hb) with rfl | hb
      · have h1 : 0 < cmp b y := not_le.mp hxy
        exact le_of_lt ((hv.1 y b).mpr h1)
      · exact hl.1 b hb

theorem qsort_model_perm (cmp : sample_t → sample_t → Int) :
    ∀ l, List.Perm (qsort_model cmp l) l
  | [] => List.Perm.refl _
  | x :: xs => by
    unfold qsort_model
    exact (qsort_insert_perm cmp x _).trans ((qsort_model_perm cmp xs).cons x)

theorem qsort_model_sorted (cmp : sample_t → sample_t → Int) (hv : valid_cmp cmp) :
    ∀ l, List.Pairwise (fun a b => cmp a b ≤ 0) (qsort_model cmp l)
  | [] => by simp [qsort_model]
  | x :: xs => by
    unfold qsort_model
    exact qsort_insert_sorted cmp hv x _ (qsort_model_sorted cmp hv xs)

/-- The insertion sort meets the contract of `qsort`. -/
theorem qsort_model_contract : qsort_contract qsort_model :=
  fun cmp l hv => ⟨qsort_model_perm cmp l, qsort_model_sorted cmp hv l⟩

/-- The process ids present after merging are the one of the open slot and
those of the remaining records. -/
theorem merge_adjacent_tgid_mem :
    ∀ (rest : List sample_t) (w : sample_t) (t : Int),
      (∃ r ∈ merge_adjacent w rest, r.tgid = t) ↔ (w.tgid = t ∨ ∃ s ∈ rest, s.tgid = t)
  | [], w, t => by simp [merge_adjacent]
  | s :: rest, w, t => by
    unfold merge_adjacent
    split
    · rename_i h
      rw [merge_adjacent_tgid_mem rest (merge_into w s) t]
      have : (merge_into w s).tgid = w.tgid := rfl
      rw [this]
      constructor
      · rintro (h1 | ⟨x, hx, hxt⟩)
        · exact Or.inl h1
        · exact Or.inr ⟨x, List.mem_cons_of_mem _ hx, hxt⟩
      · rintro (h1 | ⟨x, hx, hxt⟩)
        · exact Or.inl h1
        · rcases List.mem_cons.mp hx with rfl | hx
          · exact Or.inl (h.trans hxt)
          · exact Or.inr ⟨x, hx, hxt⟩
    · rename_i h
      have ih := merge_adjacent_tgid_mem rest { s with pid := s.tgid } t
      constructor
      · rintro ⟨r, hr, hrt⟩
        rcases List.mem_cons.mp hr with rfl | hr
        · exact Or.inl hrt
        · rcases ih.mp ⟨r, hr, hrt⟩ with h1 | ⟨x, hx, hxt⟩
          · exact Or.inr ⟨s, List.mem_cons_self _ _, h1⟩
          · exact Or.inr ⟨x, List.mem_cons_of_mem _ hx, hxt⟩
      · rintro (h1 | ⟨x, hx, hxt⟩)
        · exact ⟨w, List.mem_cons_self _ _, h1⟩
        · rcases List.mem_cons.mp hx with rfl | hx
          · obtain ⟨r, hr, hrt⟩ := ih.mpr (Or.inl hxt)
            exact ⟨r, List.mem_cons_of_mem _ hr, hrt⟩
          · obtain ⟨r, hr, hrt⟩ := ih.mpr (Or.inr ⟨x, hx, hxt⟩)
            exact ⟨r, List.mem_cons_of_mem _ hr, hrt⟩

/-- Merging a list ordered by process id yields strictly increasing process ids. -/
theorem merge_adjacent_strict :
    ∀ (rest : List sample_t) (w : sample_t),
      List.Pairwise (fun a b => a.tgid ≤ b.tgid) (w :: rest) →
      List.Pairwise (fun a b => a.tgid < b.tgid) (merge_adjacent w rest)
  | [], w, _ => by simp [merge_adjacent]
  | s :: rest, w, hs => by
    unfold merge_adjacent
    rw [List.pairwise_cons] at hs
    obtain ⟨hw, hrest⟩ := hs
    split
    · rename_i h
      apply merge_adjacent_strict rest (merge_into w s)
      refine List.Pairwise.cons ?_ (List.pairwise_cons.mp hrest).2
      intro b hb
      exact hw b (List.mem_cons_of_mem _ hb)
    · rename_i h
      have hlt : w.tgid < s.tgid := lt_of_le_of_ne (hw s (List.mem_cons_self _ _)) h
      have hs2 : List.Pairwise (fun a b => a.tgid ≤ b.tgid)
          ({ s with pid := s.tgid } :: rest) := by
        refine List.Pairwise.cons ?_ (List.pairwise_cons.mp hrest).2
        intro b hb
        exact (List.pairwise_cons.mp hrest).1 b hb
      refine List.Pairwise.cons ?_ (merge_adjacent_strict rest _ hs2)
      intro r hr
      rcases (merge_adjacent_tgid_mem rest { s with pid := s.tgid } r.tgid).mp ⟨r, hr, rfl⟩
        with h1 | ⟨x, hx, hxt⟩
      · have : s.tgid = r.tgid := h1
        omega
      · have := (List.pairwise_cons.mp hrest).1 x hx
        omega

/-- Merging a list ordered by process id gives each output record, in every
field that the merge branch adds up and the `pid` overwrite leaves alone, the
value of the open slot (when it belongs to the process of the record) plus the sum over
the remaining records of that process. -/
theorem merge_adjacent_sum (f : sample_t → ℚ)
    (hadd : ∀ a b, f (merge_into a b) = f a + f b)
    (hpid : ∀ (a : sample_t) (p : Int), f { a with pid := p } = f a) :
    ∀ (rest : List sample_t) (w : sample_t),
      List.Pairwise (fun a b => a.tgid ≤ b.tgid) (w :: rest) →
      ∀ r ∈ merge_adjacent w rest,
        f r = (if w.tgid = r.tgid then f w else 0) +
          ((rest.filter (fun s => decide (s.tgid = r.tgid))).map f).sum
  | [], w, _, r, hr => by
    simp [merge_adjacent] at hr
    subst hr
    simp
  | s :: rest, w, hs, r, hr => by
    unfold merge_adjacent at hr
    rw [List.pairwise_cons] at hs
    obtain ⟨hw, hrest⟩ := hs
    have hrest2 := List.pairwise_cons.mp hrest
    split at hr
    · rename_i h
      have hs2 : List.Pairwise (fun a b => a.tgid ≤ b.tgid) (merge_into w s :: rest) := by
        refine List.Pairwise.cons ?_ hrest2.2
        intro b hb
        exact hw b (List.mem_cons_of_mem _ hb)
      have ih := merge_adjacent_sum f hadd hpid rest (merge_into w s) hs2 r hr
      have e : (merge_into w s).tgid = w.tgid := rfl
      rw [e, hadd] at ih
      rw [ih, List.filter_cons]
      by_cases hwr : w.tgid = r.tgid
      · have hsr : s.tgid = r.tgid := h ▸ hwr
        simp [hwr, hsr]
        ring
      · have hsr : ¬ s.tgid = r.tgid := fun hh => hwr (h.trans hh)
        simp [hwr, hsr]
    · rename_i h
      have hlt : w.tgid < s.tgid := lt_of_le_of_ne (hw s (List.mem_cons_self _ _)) h
      rcases List.mem_cons.mp hr with rfl | hr
      · have hnone : (s :: rest).filter (fun x => decide (x.tgid = r.tgid)) = [] := by
          rw [List.filter_eq_nil_iff]
          intro x hx
          have hx2 : s.tgid ≤ x.tgid := by
            rcases List.mem_cons.mp hx with rfl | hx
            · exact le_refl _
            · exact hrest2.1 x hx
          simp only [decide_eq_true_eq]
          omega
        rw [hnone]
        simp
      · have hs2 : List.Pairwise (fun a b => a.tgid ≤ b.tgid)
            ({ s with pid := s.tgid } :: rest) := by
          refine List.Pairwise.cons ?_ hrest2.2
          intro b hb
          exact hrest2.1 b hb
        have ih := merge_adjacent_sum f hadd hpid rest { s with pid := s.tgid } hs2 r hr
        have e : ({ s with pid := s.tgid } : sample_t).tgid = s.tgid := rfl
        rw [e, hpid s s.tgid] at ih
        have hge : s.tgid ≤ r.tgid := by
          rcases (merge_adjacent_tgid_mem rest { s with pid := s.tgid } r.tgid).mp ⟨r, hr, rfl⟩
            with h1 | ⟨x, hx, hxt⟩
          · exact le_of_eq h1
          · exact hxt ▸ hrest2.1 x hx
        have hwr : ¬ w.tgid = r.tgid := by omega
        rw [ih, List.filter_cons]
        by_cases hsr : s.tgid = r.tgid
        · simp [hwr, hsr]
        · simp [hwr, hsr]

/-- What `qsort` with `cmp_tgid` returns: a rearrangement ordered by process id. -/
theorem qsort_tgid_spec (qsort : (sample_t → sample_t → Int) → List sample_t → List sample_t)
    (hq : qsort_contract qsort) (src : List sample_t) :
    List.Perm (qsort cmp_tgid src) src ∧
      List.Pairwise (fun a b => a.tgid ≤ b.tgid) (qsort cmp_tgid src) := by
  obtain ⟨hp, hs⟩ := hq cmp_tgid src valid_cmp_tgid
  exact ⟨hp, hs.imp (fun h => (cmp_tgid_le _ _).mp h)⟩

/-- The process ids of the aggregates are those of the input. -/
theorem aggregate_tgid_mem (qsort : (sample_t → sample_t → Int) → List sample_t → List sample_t)
    (hq : qsort_contract qsort) (src : List sample_t) (t : Int) :
    (∃ r ∈ aggregate_by_tgid qsort src, r.tgid = t) ↔ (∃ s ∈ src, s.tgid = t) := by
  obtain ⟨hp, _⟩ := qsort_tgid_spec qsort hq src
  have hmem : ∀ s, s ∈ qsort cmp_tgid src ↔ s ∈ src := fun s => hp.mem_iff
  unfold aggregate_by_tgid
  cases hL : qsort cmp_tgid src with
  | nil =>
    rw [hL] at hp
    have : src = [] := List.Perm.eq_nil (List.Perm.symm hp)
    subst this
    simp
  | cons w rest =>
    simp only
    rw [merge_adjacent_tgid_mem]
    constructor
    · rintro (h1 | ⟨x, hx, hxt⟩)
      · exact ⟨w, (hmem w).mp (hL ▸ List.mem_cons_self _ _), h1⟩
      · exact ⟨x, (hmem x).mp (hL ▸ List.mem_cons_of_mem _ hx), hxt⟩
    · rintro ⟨x, hx, hxt⟩
      have hx2 := (hmem x).mpr hx
      rw [hL] at hx2
      rcases List.mem_cons.mp hx2 with rfl | hx2
      · exact Or.inl hxt
      · exact Or.inr ⟨x, hx2, hxt⟩

/-- The aggregates come out with strictly increasing process ids. -/
theorem aggregate_strict (qsort : (sample_t → sample_t → Int) → List sample_t → List sample_t)
    (hq : qsort_contract qsort) (src : List sample_t) :
    List.Pairwise (fun a b => a.tgid < b.tgid) (aggregate_by_tgid qsort src) := by
  obtain ⟨_, hs⟩ := qsort_tgid_spec qsort hq src
  unfold aggregate_by_tgid
  cases hL : qsort cmp_tgid src with
  | nil => simp
  | cons w rest =>
    simp only
    rw [hL] at hs
    exact merge_adjacent_strict rest w hs

/-- Every summed field of an aggregate is the sum of that field over the input
samples of its process. -/
theorem aggregate_sum (qsort : (sample_t → sample_t → Int) → List sample_t → List sample_t)
    (hq : qsort_contract qsort) (f : sample_t → ℚ)
    (hadd : ∀ a b, f (merge_into a b) = f a + f b)
    (hpid : ∀ (a : sample_t) (p : Int), f { a with pid := p } = f a)
    (src : List sample_t) :
    ∀ r ∈ aggregate_by_tgid qsort src,
      f r = ((src.filter (fun s => decide (s.tgid = r.tgid))).map f).sum := by
  obtain ⟨hp, hs⟩ := qsort_tgid_spec qsort hq src
  intro r hr
  have hperm : (((qsort cmp_tgid src).filter (fun s => decide (s.tgid = r.tgid))).map f).sum
      = ((src.filter (fun s => decide (s.tgid = r.tgid))).map f).sum :=
    List.Perm.sum_eq ((hp.filter _).map f)
  rw [← hperm]
  unfold aggregate_by_tgid at hr
  cases hL : qsort cmp_tgid src with
  | nil =>
    rw [hL] at hr
    simp at hr
  | cons w rest =>
    rw [hL] at hr hs
    simp only at hr
    rw [merge_adjacent_sum f hadd hpid rest w hs r hr, List.filter_cons]
    by_cases hwr : w.tgid = r.tgid
    · simp [hwr]
    · simp [hwr]

/-- The number of aggregates with a given process id is one when the id occurs
in the input and zero otherwise. -/
theorem aggregate_count (qsort : (sample_t → sample_t → Int) → List sample_t → List sample_t)
    (hq : qsort_contract qsort) (src : List sample_t) (t : Int) :
    ((aggregate_by_tgid qsort src).map (fun r => r.tgid)).count t =
      if t ∈ src.map (fun s => s.tgid) then 1 else 0 := by
  have hnd : ((aggregate_by_tgid qsort src).map (fun r => r.tgid)).Nodup := by
    unfold List.Nodup
    rw [List.pairwise_map]
    exact (aggregate_strict qsort hq src).imp (fun h => ne_of_lt h)
  have hmem : t ∈ (aggregate_by_tgid qsort src).map (fun r => r.tgid) ↔
      t ∈ src.map (fun s => s.tgid) := by
    simp only [List.mem_map]
    exact aggregate_tgid_mem qsort hq src t
  by_cases ht : t ∈ src.map (fun s => s.tgid)
  · rw [if_pos ht]
    exact List.count_eq_one_of_mem hnd (hmem.mpr ht)
  · rw [if_neg ht]
    exact List.count_eq_zero_of_not_mem (fun h => ht (hmem.mp h))

/-- A strictly increasing list of integers whose members are exactly 100 and
200 is the list `[100, 200]`. -/
theorem strict_list_100_200 (l : List Int) (hs : l.Pairwise (fun a b => a < b))
    (hm : ∀ t, t ∈ l ↔ (t = 100 ∨ t = 200)) : l = [100, 200] := by
  have hnd : l.Nodup := hs.imp (fun h => ne_of_lt h)
  have hp : List.Perm l [100, 200] := by
    rw [List.perm_ext_iff_of_nodup hnd (by decide)]
    intro a
    rw [hm a]
    simp
  exact List.eq_of_perm_of_sorted hp hs (by decide)

/-- C4: for every `qsort` meeting the C contract and every input list of rate
samples, `aggregate_by_tgid` returns exactly one record per process id of the
input and none for any other id; the six summed fields of each record are the
exact sums of that field over the input samples with the process id of the record; a
process with one thread keeps the six values of that thread; and the three threads
(tid 10, tgid 100, cpu 5), (tid 11, tgid 100, cpu 3), (tid 20, tgid 200, cpu 1)
of `demo_threads` give the aggregates (tgid 100, cpu 8) and (tgid 200, cpu 1). -/
theorem aggregate_by_tgid_sum_preserving
    (qsort : (sample_t → sample_t → Int) → List sample_t → List sample_t)
    (hq : qsort_contract qsort) (src : List sample_t) :
    (∀ t : Int, ((aggregate_by_tgid qsort src).map (fun r => r.tgid)).count t =
        if t ∈ src.map (fun s => s.tgid) then 1 else 0) ∧
    (∀ r ∈ aggregate_by_tgid qsort src,
      r.cpu_pct = ((src.filter (fun s => decide (s.tgid = r.tgid))).map (fun s => s.cpu_pct)).sum ∧
      r.r_iops = ((src.filter (fun s => decide (s.tgid = r.tgid))).map (fun s => s.r_iops)).sum ∧
      r.w_iops = ((src.filter (fun s => decide (s.tgid = r.tgid))).map (fun s => s.w_iops)).sum ∧
      r.io_wait_ms =
        ((src.filter (fun s => decide (s.tgid = r.tgid))).map (fun s => s.io_wait_ms)).sum ∧
      r.r_mib = ((src.filter (fun s => decide (s.tgid = r.tgid))).map (fun s => s.r_mib)).sum ∧
      r.w_mib = ((src.filter (fun s => decide (s.tgid = r.tgid))).map (fun s => s.w_mib)).sum) ∧
    (∀ s, src.filter (fun x => decide (x.tgid = s.tgid)) = [s] →
      ∃ r ∈ aggregate_by_tgid qsort src, r.tgid = s.tgid ∧ r.cpu_pct = s.cpu_pct ∧
        r.r_iops = s.r_iops ∧ r.w_iops = s.w_iops ∧ r.io_wait_ms = s.io_wait_ms ∧
        r.r_mib = s.r_mib ∧ r.w_mib = s.w_mib) ∧
    (aggregate_by_tgid qsort demo_threads).map (fun r => (r.tgid, r.cpu_pct)) =
      [(100, 8), (200, 1)] := by
  have hsum : ∀ (l : List sample_t), ∀ r ∈ aggregate_by_tgid qsort l,
      r.cpu_pct = ((l.filter (fun s => decide (s.tgid = r.tgid))).map (fun s => s.cpu_pct)).sum ∧
      r.r_iops = ((l.filter (fun s => decide (s.tgid = r.tgid))).map (fun s => s.r_iops)).sum ∧
      r.w_iops = ((l.filter (fun s => decide (s.tgid = r.tgid))).map (fun s => s.w_iops)).sum ∧
      r.io_wait_ms =
        ((l.filter (fun s => decide (s.tgid = r.tgid))).map (fun s => s.io_wait_ms)).sum ∧
      r.r_mib = ((l.filter (fun s => decide (s.tgid = r.tgid))).map (fun s => s.r_mib)).sum ∧
      r.w_mib = ((l.filter (fun s => decide (s.tgid = r.tgid))).map (fun s => s.w_mib)).sum := by
    intro l r hr
    exact ⟨aggregate_sum qsort hq (fun s => s.cpu_pct) (fun _ _ => rfl) (fun _ _ => rfl) l r hr,
      aggregate_sum qsort hq (fun s => s.r_iops) (fun _ _ => rfl) (fun _ _ => rfl) l r hr,
      aggregate_sum qsort hq (fun s => s.w_iops) (fun _ _ => rfl) (fun _ _ => rfl) l r hr,
      aggregate_sum qsort hq (fun s => s.io_wait_ms) (fun _ _ => rfl) (fun _ _ => rfl) l r hr,
      aggregate_sum qsort hq (fun s => s.r_mib) (fun _ _ => rfl) (fun _ _ => rfl) l r hr,
      aggregate_sum qsort hq (fun s => s.w_mib) (fun _ _ => rfl) (fun _ _ => rfl) l r hr⟩
  refine ⟨aggregate_count qsort hq src, hsum src, ?_, ?_⟩
  · intro s hs
    have hsmem : s ∈ src := by
      have : s ∈ src.filter (fun x => decide (x.tgid = s.tgid)) := by rw [hs]; simp
      exact (List.mem_filter.mp this).1
    obtain ⟨r, hr, hrt⟩ := (aggregate_tgid_mem qsort hq src s.tgid).mpr ⟨s, hsmem, rfl⟩
    have h6 := hsum src r hr
    rw [hrt, hs] at h6
    simp only [List.map_cons, List.map_nil, List.sum_cons, List.sum_nil, add_zero] at h6
    exact ⟨r, hr, hrt, h6⟩
  · have hstrict := aggregate_strict qsort hq demo_threads
    have hmem := aggregate_tgid_mem qsort hq demo_threads
    have h6 := hsum demo_threads
    generalize aggregate_by_tgid qsort demo_threads = out at hstrict hmem h6 ⊢
    have htg : out.map (fun r => r.tgid) = [100, 200] := by
      apply strict_list_100_200
      · rw [List.pairwise_map]
        exact hstrict
      · intro t
        rw [List.mem_map, hmem t]
        simp [demo_threads, blank_sample]
        tauto
    match out, htg, h6 with
    | [r1, r2], htg, h6 =>
      simp only [List.map_cons, List.map_nil, List.cons.injEq, and_true] at htg
      obtain ⟨h1, h2⟩ := htg
      have e1 := (h6 r1 (by simp)).1
      have e2 := (h6 r2 (by simp)).1
      rw [h1] at e1
      rw [h2] at e2
      simp [demo_threads, blank_sample, List.filter] at e1 e2
      simp only [List.map_cons, List.map_nil, h1, h2, e1, e2]
      norm_num
    | [], htg, _ => simp at htg
    | [_], htg, _ => simp at htg
    | _ :: _ :: _ :: _, htg, _ => simp at htg

/-- Unsigned subtraction does not wrap when the first operand is the larger one. -/
theorem u64_sub_of_le {a b : Nat} (hab : b ≤ a) (ha : a < U64) : u64_sub a b = a - b := by
  simp only [u64_sub, U64] at *
  have hb : b % 2 ^ 64 = b := Nat.mod_eq_of_lt (by omega)
  rw [hb]
  omega

/-- One guarded difference of the delta block, over the integers. -/
theorem guarded_delta (a b : Nat) (ha : a < U64) :
    (((if a ≥ b then u64_sub a b else 0 : Nat) : Int) =
      if a < b then 0 else (a : Int) - (b : Int)) := by
  by_cases h : a < b
  · have h2 : ¬ a ≥ b := by omega
    simp [h, h2]
  · have h2 : a ≥ b := by omega
    rw [if_pos h2, if_neg h, u64_sub_of_le h2 ha]
    omega

/-- One guarded difference of the delta block is the `max(0, c - p)` of the contract. -/
theorem guarded_delta_spec (a b : Nat) (ha : a < U64) :
    (((if a ≥ b then u64_sub a b else 0 : Nat) : ℚ) = spec_delta a b) := by
  unfold spec_delta
  have h := guarded_delta a b ha
  have h3 : ((if a ≥ b then u64_sub a b else 0 : Nat) : ℚ)
      = (((if a ≥ b then u64_sub a b else 0 : Nat) : Int) : ℚ) := by push_cast; rfl
  rw [h3, h]
  congr 1
  by_cases hlt : a < b
  · rw [if_pos hlt, max_eq_left (by omega)]
  · rw [if_neg hlt, max_eq_right (by omega)]

/-- On a key-ordered store with distinct keys `find_prev` returns the record
that carries the key. -/
theorem find_prev_unique {prev : List sample_t} {p : sample_t}
    (hs : prev.Pairwise (fun a b => a.key ≤ b.key))
    (hd : (prev.map (fun s => s.key)).Nodup) (hp : p ∈ prev) :
    find_prev prev p.key = some p := by
  obtain ⟨r, hr⟩ := find_prev_complete hs ⟨p, hp, rfl⟩
  obtain ⟨hk, hmem⟩ := find_prev_sound hr
  have : r = p := List.inj_on_of_nodup_map hd hmem hp hk
  rw [hr, this]

/-- A key that no record of the store carries is not found. -/
theorem find_prev_absent {prev : List sample_t} {key : Nat}
    (h : ∀ s ∈ prev, s.key ≠ key) : find_prev prev key = none := by
  cases hf : find_prev prev key with
  | none => rfl
  | some r =>
    obtain ⟨hk, hmem⟩ := find_prev_sound hf
    exact absurd hk (h r hmem)

/-- With nonzero divisors the rate formulas produce the six quotients. -/
theorem apply_rates_eq (c : sample_t) (d : deltas) (dt : ℚ) (hz : Int)
    (hdt : dt ≠ 0) (hhz : hz ≠ 0) :
    apply_rates c d dt hz = some
      { c with cpu_pct := (d.d_cpu : ℚ) * 100 / (dt * (hz : ℚ)),
               r_iops := (d.d_scr : ℚ) / dt,
               w_iops := (d.d_scw : ℚ) / dt,
               r_mib := (d.d_rb : ℚ) / dt / 1048576,
               w_mib := (d.d_wb : ℚ) / dt / 1048576,
               io_wait_ms := (d.d_blk : ℚ) * 1000 / (hz : ℚ) } := by
  have h1 : (hz : ℚ) ≠ 0 := by exact_mod_cast hhz
  have h2 : dt * (hz : ℚ) ≠ 0 := mul_ne_zero hdt h1
  simp [apply_rates, fdiv, hdt, h1, h2]

/-- C1: in the rate loop, for a current sample `c` with counters in `uint64_t`
range and a previous store that is ordered by key, has pairwise distinct keys
and holds a record `p` with the key of `c`, each of the six deltas is 0 when
the counter of `c` is smaller than that of `p` and is otherwise their exact
difference over the integers: never negative, never a wrapped value. -/
theorem deltas_clamped (prev : List sample_t) (c p : sample_t)
    (hs : prev.Pairwise (fun a b => a.key ≤ b.key))
    (hd : (prev.map (fun s => s.key)).Nodup)
    (hp : p ∈ prev) (hk : p.key = c.key) (hc : counters_in_range c) :
    ((compute_deltas c (find_prev prev c.key)).d_cpu : Int) =
        (if c.cpu_jiffies < p.cpu_jiffies then 0 else (c.cpu_jiffies : Int) - p.cpu_jiffies) ∧
    ((compute_deltas c (find_prev prev c.key)).d_scr : Int) =
        (if c.syscr < p.syscr then 0 else (c.syscr : Int) - p.syscr) ∧
    ((compute_deltas c (find_prev prev c.key)).d_scw : Int) =
        (if c.syscw < p.syscw then 0 else (c.syscw : Int) - p.syscw) ∧
    ((compute_deltas c (find_prev prev c.key)).d_rb : Int) =
        (if c.read_bytes < p.read_bytes then 0 else (c.read_bytes : Int) - p.read_bytes) ∧
    ((compute_deltas c (find_prev prev c.key)).d_wb : Int) =
        (if c.write_bytes < p.write_bytes then 0 else (c.write_bytes : Int) - p.write_bytes) ∧
    ((compute_deltas c (find_prev prev c.key)).d_blk : Int) =
        (if c.blkio_ticks < p.blkio_ticks then 0 else (c.blkio_ticks : Int) - p.blkio_ticks) := by
  rw [← hk, find_prev_unique hs hd hp]
  obtain ⟨h1, h2, h3, h4, h5, h6⟩ := hc
  exact ⟨guarded_delta _ _ h5, guarded_delta _ _ h1, guarded_delta _ _ h2,
    guarded_delta _ _ h3, guarded_delta _ _ h4, guarded_delta _ _ h6⟩

/-- C2: for a current sample whose key no record of the previous store carries,
`find_prev` returns `NULL` and, for `dt > 0` and `hz > 0`, the rate loop writes
exactly 0 into all six derived fields. -/
theorem new_thread_zero_rates (prev : List sample_t) (c : sample_t) (dt : ℚ) (hz : Int)
    (hnew : ∀ s ∈ prev, s.key ≠ c.key) (hdt : 0 < dt) (hhz : 0 < hz) :
    find_prev prev c.key = none ∧
    ∃ c', rate_step prev dt hz c = some c' ∧ c'.cpu_pct = 0 ∧ c'.r_iops = 0 ∧
      c'.w_iops = 0 ∧ c'.r_mib = 0 ∧ c'.w_mib = 0 ∧ c'.io_wait_ms = 0 := by
  have hf := find_prev_absent hnew
  refine ⟨hf, ?_⟩
  unfold rate_step
  rw [hf, apply_rates_eq _ _ _ _ (ne_of_gt hdt) (ne_of_gt hhz)]
  exact ⟨_, rfl, by simp [compute_deltas]⟩

/-- C3: for a current sample `c` matched with the record `p` of a key-ordered
store with distinct keys, and `dt > 0`, `hz > 0`, the rate loop writes
`cpu_pct = 100*d_cpu/(dt*hz)`, `r_iops = d_scr/dt`, `w_iops = d_scw/dt`,
`r_mib = d_rb/dt/1048576`, `w_mib = d_wb/dt/1048576` and
`io_wait_ms = 1000*d_blk/hz` in exact arithmetic, each `d` being the clamped
delta `max(0, c - p)`; with `dt = 2`, `hz = 100`, `d_cpu = 50` the CPU value is
25, and `read_bytes` going from 0 to 1048576 with `dt = 1` gives `r_mib = 1`. -/
theorem rate_formulas (prev : List sample_t) (c p : sample_t) (dt : ℚ) (hz : Int)
    (hs : prev.Pairwise (fun a b => a.key ≤ b.key))
    (hd : (prev.map (fun s => s.key)).Nodup)
    (hp : p ∈ prev) (hk : p.key = c.key) (hc : counters_in_range c)
    (hdt : 0 < dt) (hhz : 0 < hz) :
    ∃ c', rate_step prev dt hz c = some c' ∧
      c'.cpu_pct = 100 * spec_delta c.cpu_jiffies p.cpu_jiffies / (dt * (hz : ℚ)) ∧
      c'.r_iops = spec_delta c.syscr p.syscr / dt ∧
      c'.w_iops = spec_delta c.syscw p.syscw / dt ∧
      c'.r_mib = spec_delta c.read_bytes p.read_bytes / dt / 1048576 ∧
      c'.w_mib = spec_delta c.write_bytes p.write_bytes / dt / 1048576 ∧
      c'.io_wait_ms = 1000 * spec_delta c.blkio_ticks p.blkio_ticks / (hz : ℚ) ∧
      (dt = 2 → hz = 100 → spec_delta c.cpu_jiffies p.cpu_jiffies = 50 → c'.cpu_pct = 25) ∧
      (dt = 1 → p.read_bytes = 0 → c.read_bytes = 1048576 → c'.r_mib = 1) := by
  obtain ⟨h1, h2, h3, h4, h5, h6⟩ := hc
  unfold rate_step
  rw [← hk, find_prev_unique hs hd hp, apply_rates_eq _ _ _ _ (ne_of_gt hdt) (ne_of_gt hhz)]
  refine ⟨_, rfl, ?_, ?_, ?_, ?_, ?_, ?_, ?_, ?_⟩
  · show ((if c.cpu_jiffies ≥ p.cpu_jiffies then u64_sub c.cpu_jiffies p.cpu_jiffies else 0 : ℕ) : ℚ)
      * 100 / (dt * (hz : ℚ)) = _
    rw [guarded_delta_spec _ _ h5]
    ring
  · show ((if c.syscr ≥ p.syscr then u64_sub c.syscr p.syscr else 0 : ℕ) : ℚ) / dt = _
    rw [guarded_delta_spec _ _ h1]
  · show ((if c.syscw ≥ p.syscw then u64_sub c.syscw p.syscw else 0 : ℕ) : ℚ) / dt = _
    rw [guarded_delta_spec _ _ h2]
  · show ((if c.read_bytes ≥ p.read_bytes then u64_sub c.read_bytes p.read_bytes else 0 : ℕ) : ℚ)
      / dt / 1048576 = _
    rw [guarded_delta_spec _ _ h3]
  · show ((if c.write_bytes ≥ p.write_bytes then u64_sub c.write_bytes p.write_bytes else 0 : ℕ)
      : ℚ) / dt / 1048576 = _
    rw [guarded_delta_spec _ _ h4]
  · show ((if c.blkio_ticks ≥ p.blkio_ticks then u64_sub c.blkio_ticks p.blkio_ticks else 0 : ℕ)
      : ℚ) * 1000 / (hz : ℚ) = _
    rw [guarded_delta_spec _ _ h6]
    ring
  · intro hdt2 hhz2 hdelta
    show ((if c.cpu_jiffies ≥ p.cpu_jiffies then u64_sub c.cpu_jiffies p.cpu_jiffies else 0 : ℕ) : ℚ)
      * 100 / (dt * (hz : ℚ)) = _
    rw [guarded_delta_spec _ _ h5, hdelta, hdt2, hhz2]
    norm_num
  · intro hdt1 hp0 hc1
    show ((if c.read_bytes ≥ p.read_bytes then u64_sub c.read_bytes p.read_bytes else 0 : ℕ) : ℚ)
      / dt / 1048576 = _
    rw [guarded_delta_spec _ _ h3, hdt1, hp0, hc1]
    norm_num [spec_delta]

/-- C10: for a configured interval `> 0` (the `-i` check accepts no other
value) and any two timestamps, the elapsed time `dt` of the cycle is strictly
positive: it is `t_curr - t_prev` when that is `> 0` and the interval
otherwise; so with `hz > 0` every divisor of the rate formulas is nonzero and
the rate loop yields a value for every sample. -/
theorem elapsed_dt_positive (interval t_prev t_curr : ℚ) (hi : 0 < interval) :
    0 < elapsed_dt interval t_prev t_curr ∧
    (0 < t_curr - t_prev → elapsed_dt interval t_prev t_curr = t_curr - t_prev) ∧
    (t_curr - t_prev ≤ 0 → elapsed_dt interval t_prev t_curr = interval) ∧
    (∀ (hz : Int), 0 < hz →
      elapsed_dt interval t_prev t_curr ≠ 0 ∧ (hz : ℚ) ≠ 0 ∧
      elapsed_dt interval t_prev t_curr * (hz : ℚ) ≠ 0 ∧
      ∀ (prev : List sample_t) (c : sample_t),
        (rate_step prev (elapsed_dt interval t_prev t_curr) hz c).isSome = true) ∧
    (∀ v w : ℚ, opt_interval v = Except.ok w → 0 < w) := by
  have hpos : 0 < elapsed_dt interval t_prev t_curr := by
    unfold elapsed_dt
    simp only
    split
    · exact hi
    · rename_i h
      exact not_le.mp h
  refine ⟨hpos, ?_, ?_, ?_, ?_⟩
  · intro h
    unfold elapsed_dt
    simp only
    rw [if_neg (not_le.mpr h)]
  · intro h
    unfold elapsed_dt
    simp only
    rw [if_pos h]
  · intro hz hhz
    have h1 : (hz : ℚ) ≠ 0 := by exact_mod_cast (ne_of_gt hhz)
    refine ⟨ne_of_gt hpos, h1, mul_ne_zero (ne_of_gt hpos) h1, ?_⟩
    intro prev c
    unfold rate_step
    rw [apply_rates_eq _ _ _ _ (ne_of_gt hpos) (ne_of_gt hhz)]
    rfl
  · intro v w h
    unfold opt_interval at h
    split at h
    · cases h
    · rename_i hv
      cases h
      exact not_le.mp hv

/-- C6: on a store ordered by key, `find_prev` (a total function: the loop
always ends) returns a record of the store with key `k` whenever some record
has key `k`, and returns `NULL` exactly when no record has key `k`. -/
theorem find_prev_correct (prev : List sample_t) (k : Nat)
    (hs : prev.Pairwise (fun a b => a.key ≤ b.key)) :
    ((∃ s ∈ prev, s.key = k) → ∃ r, find_prev prev k = some r ∧ r.key = k ∧ r ∈ prev) ∧
    (find_prev prev k = none ↔ ¬ ∃ s ∈ prev, s.key = k) := by
  constructor
  · intro hex
    obtain ⟨r, hr⟩ := find_prev_complete hs hex
    exact ⟨r, hr, find_prev_sound hr⟩
  · constructor
    · intro hnone hex
      obtain ⟨r, hr⟩ := find_prev_complete hs hex
      rw [hnone] at hr
      cases hr
    · intro hno
      exact find_prev_absent (fun s hmem hk => hno ⟨s, hmem, hk⟩)

/-- A `qsort` call with the descending comparator of a field returns a
rearrangement in which the field value of every record is at least that of every
later record. -/
theorem qsort_desc_spec {α : Type} [LinearOrder α]
    (qsort : (sample_t → sample_t → Int) → List sample_t → List sample_t)
    (hq : qsort_contract qsort) (f : sample_t → α) (cmp : sample_t → sample_t → Int)
    (h : ∀ x y, cmp x y = (if f x < f y then (1 : Int) else 0) - (if f x > f y then 1 else 0))
    (l : List sample_t) :
    List.Perm (qsort cmp l) l ∧ List.Pairwise (fun a b => f b ≤ f a) (qsort cmp l) := by
  obtain ⟨hp, hs⟩ := hq cmp l (valid_cmp_of_desc f cmp h)
  refine ⟨hp, hs.imp ?_⟩
  intro a b hab
  rw [h, desc_sign_le] at hab
  exact hab

/-- C7: for every `qsort` meeting the C contract, each of the six sort columns
and every process list (metric values are exact numbers, so none is a NaN),
the sort of the render step returns a rearrangement of the list in which each
record has a metric value at least that of every later record, in particular
of the next one; a list with CPU values 1, 9, 5 comes out as 9, 5, 1. -/
theorem render_sort_descending
    (qsort : (sample_t → sample_t → Int) → List sample_t → List sample_t)
    (hq : qsort_contract qsort) (sort_col : sort_col_t) (view_list : List sample_t) :
    List.Perm (render_sort qsort sort_col view_list) view_list ∧
    List.Pairwise (fun a b => metric sort_col a ≥ metric sort_col b)
      (render_sort qsort sort_col view_list) ∧
    (∀ i a b, (render_sort qsort sort_col view_list)[i]? = some a →
      (render_sort qsort sort_col view_list)[i + 1]? = some b →
      metric sort_col a ≥ metric sort_col b) ∧
    (view_list.map (fun s => s.cpu_pct) = [1, 9, 5] →
      (render_sort qsort SORT_CPU view_list).map (fun s => s.cpu_pct) = [9, 5, 1]) := by
  have hmain : ∀ col, List.Perm (render_sort qsort col view_list) view_list ∧
      List.Pairwise (fun a b => metric col a ≥ metric col b)
        (render_sort qsort col view_list) := by
    intro col
    cases col with
    | SORT_PID =>
      obtain ⟨hp, hs⟩ := qsort_desc_spec qsort hq (fun s => s.pid) cmp_pid_desc
        (fun _ _ => rfl) view_list
      refine ⟨hp, hs.imp ?_⟩
      intro a b hab
      show (b.pid : ℚ) ≤ (a.pid : ℚ)
      exact_mod_cast hab
    | SORT_CPU =>
      exact qsort_desc_spec qsort hq (fun s => s.cpu_pct) cmp_cpu_desc (fun _ _ => rfl) view_list
    | SORT_RIOPS =>
      exact qsort_desc_spec qsort hq (fun s => s.r_iops) cmp_riops_desc (fun _ _ => rfl) view_list
    | SORT_WIOPS =>
      exact qsort_desc_spec qsort hq (fun s => s.w_iops) cmp_wiops_desc (fun _ _ => rfl) view_list
    | SORT_RMIB =>
      exact qsort_desc_spec qsort hq (fun s => s.r_mib) cmp_rmib_desc (fun _ _ => rfl) view_list
    | SORT_WMIB =>
      exact qsort_desc_spec qsort hq (fun s => s.w_mib) cmp_wmib_desc (fun _ _ => rfl) view_list
  refine ⟨(hmain sort_col).1, (hmain sort_col).2, ?_, ?_⟩
  · intro i a b ha hb
    have hs := (hmain sort_col).2
    rw [List.pairwise_iff_getElem] at hs
    obtain ⟨hi, rfl⟩ := List.getElem?_eq_some.mp ha
    obtain ⟨hj, rfl⟩ := List.getElem?_eq_some.mp hb
    exact hs i (i + 1) hi hj (Nat.lt_succ_self i)
  · intro hv
    obtain ⟨hp, hs⟩ := hmain SORT_CPU
    have hp2 : List.Perm ((render_sort qsort SORT_CPU view_list).map (fun s => s.cpu_pct))
        [9, 5, 1] := by
      refine (hp.map _).trans ?_
      rw [hv]
      exact (List.Perm.swap 9 1 [5]).trans ((List.Perm.swap 5 1 []).cons 9)
    have hs2 : List.Sorted (fun x y : ℚ => x ≥ y)
        ((render_sort qsort SORT_CPU view_list).map (fun s => s.cpu_pct)) := by
      unfold List.Sorted
      rw [List.pairwise_map]
      exact hs
    have hs3 : List.Sorted (fun x y : ℚ => x ≥ y) [9, 5, 1] := by
      unfold List.Sorted
      simp only [List.pairwise_cons, List.mem_cons, List.mem_singleton, List.not_mem_nil,
        forall_eq_or_imp, forall_eq, List.Pairwise.nil, and_true]
      norm_num
    exact List.eq_of_perm_of_sorted hp2 hs2 hs3

/-- C9: in the wait of the inner loop with time remaining, a digit key 1 to 6
(code 49 to 54, or the control code 1 to 6 of the same number) selects the sort column of that
number in the enumeration and sets the dirty flag, changing nothing else and
staying in the inner loop; `t`/`T` inverts the tree flag and sets the dirty
flag, changing nothing else, so a second press restores the tree flag;
`q`/`Q` leads to `cleanup`. -/
theorem key_dispatch_effects (st : loop_state) (remain : ℚ) (hr : 0 < remain) :
    idle_wait st remain (some 49) = control.stay { st with sort_col := SORT_PID, dirty := true } ∧
    idle_wait st remain (some 1) = control.stay { st with sort_col := SORT_PID, dirty := true } ∧
    idle_wait st remain (some 50) = control.stay { st with sort_col := SORT_CPU, dirty := true } ∧
    idle_wait st remain (some 2) = control.stay { st with sort_col := SORT_CPU, dirty := true } ∧
    idle_wait st remain (some 51) = control.stay { st with sort_col := SORT_RIOPS, dirty := true } ∧
    idle_wait st remain (some 3) = control.stay { st with sort_col := SORT_RIOPS, dirty := true } ∧
    idle_wait st remain (some 52) = control.stay { st with sort_col := SORT_WIOPS, dirty := true } ∧
    idle_wait st remain (some 4) = control.stay { st with sort_col := SORT_WIOPS, dirty := true } ∧
    idle_wait st remain (some 53) = control.stay { st with sort_col := SORT_RMIB, dirty := true } ∧
    idle_wait st remain (some 5) = control.stay { st with sort_col := SORT_RMIB, dirty := true } ∧
    idle_wait st remain (some 54) = control.stay { st with sort_col := SORT_WMIB, dirty := true } ∧
    idle_wait st remain (some 6) = control.stay { st with sort_col := SORT_WMIB, dirty := true } ∧
    idle_wait st remain (some 116) =
      control.stay { st with show_tree := !st.show_tree, dirty := true } ∧
    idle_wait st remain (some 84) =
      control.stay { st with show_tree := !st.show_tree, dirty := true } ∧
    idle_wait { st with show_tree := !st.show_tree, dirty := true } remain (some 116) =
      control.stay { st with dirty := true } ∧
    idle_wait { st with show_tree := !st.show_tree, dirty := true } remain (some 84) =
      control.stay { st with dirty := true } ∧
    idle_wait st remain (some 113) = control.cleanup st ∧
    idle_wait st remain (some 81) = control.cleanup st := by
  have hr2 : ¬ remain ≤ 0 := not_le.mpr hr
  simp [idle_wait, hr2, key_dispatch, wait_for_input]

/-- Evaluation for C8: with time remaining, a delivered key byte 0 makes
`wait_for_input` return 0, the value of a timeout, and the inner loop is left
for the next sampling cycle, here from `demo_state` with 5 seconds remaining
and likewise from every other state. -/
theorem nul_key_leaves_inner_loop :
    wait_for_input (some 0) = wait_for_input none ∧
    idle_wait demo_state 5 (some 0) = control.sampling demo_state ∧
    (∀ st : loop_state, idle_wait st 5 (some 0) = control.sampling st) := by
  refine ⟨rfl, ?_, ?_⟩
  · simp [idle_wait, key_dispatch, wait_for_input]
  · intro st
    simp [idle_wait, key_dispatch, wait_for_input]

theorem demo_prev_sorted : demo_prev.Pairwise (fun a b => a.key ≤ b.key) := by
  simp [demo_prev, blank_sample, make_key, U64]

theorem demo_prev_distinct : (demo_prev.map (fun s => s.key)).Nodup := by
  simp [demo_prev, blank_sample, make_key, U64]

theorem demo_curr_in_range : counters_in_range demo_curr := by
  simp [counters_in_range, demo_curr, blank_sample, U64]

/-- Witness for C1 on `demo_prev` and `demo_curr`: the fallen `syscr` gives
delta 0, the risen `cpu_jiffies` gives 50. -/
theorem deltas_clamped_witness :
    demo_prev.Pairwise (fun a b => a.key ≤ b.key) ∧
    (demo_prev.map (fun s => s.key)).Nodup ∧
    demo_p ∈ demo_prev ∧ demo_p.key = demo_curr.key ∧ counters_in_range demo_curr ∧
    ((compute_deltas demo_curr (find_prev demo_prev demo_curr.key)).d_scr : Int) = 0 ∧
    ((compute_deltas demo_curr (find_prev demo_prev demo_curr.key)).d_cpu : Int) = 50 := by
  have hm : demo_p ∈ demo_prev := by simp [demo_p, demo_prev]
  have h := deltas_clamped demo_prev demo_curr demo_p demo_prev_sorted demo_prev_distinct hm
    rfl demo_curr_in_range
  refine ⟨demo_prev_sorted, demo_prev_distinct, hm, rfl, demo_curr_in_range, ?_, ?_⟩
  · rw [h.2.1]
    simp [demo_curr, demo_p, blank_sample]
  · rw [h.1]
    simp [demo_curr, demo_p, blank_sample]

/-- Witness for C2 on `demo_prev` and the unknown thread `demo_new`. -/
theorem new_thread_zero_rates_witness :
    (∀ s ∈ demo_prev, s.key ≠ demo_new.key) ∧ (0 : ℚ) < 1 ∧ (0 : Int) < 100 ∧
    find_prev demo_prev demo_new.key = none ∧
    ∃ c', rate_step demo_prev 1 100 demo_new = some c' ∧ c'.cpu_pct = 0 ∧ c'.r_iops = 0 ∧
      c'.w_iops = 0 ∧ c'.r_mib = 0 ∧ c'.w_mib = 0 ∧ c'.io_wait_ms = 0 := by
  have hnew : ∀ s ∈ demo_prev, s.key ≠ demo_new.key := by
    simp [demo_prev, demo_new, blank_sample, make_key, U64]
  have h := new_thread_zero_rates demo_prev demo_new 1 100 hnew (by norm_num) (by norm_num)
  exact ⟨hnew, by norm_num, by norm_num, h.1, h.2⟩

/-- Witness for C3 on `demo_prev` and `demo_curr` with `dt = 2`, `hz = 100`:
the CPU value is 25. -/
theorem rate_formulas_witness :
    demo_prev.Pairwise (fun a b => a.key ≤ b.key) ∧
    (demo_prev.map (fun s => s.key)).Nodup ∧
    demo_p ∈ demo_prev ∧ demo_p.key = demo_curr.key ∧ counters_in_range demo_curr ∧
    (0 : ℚ) < 2 ∧ (0 : Int) < 100 ∧
    ∃ c', rate_step demo_prev 2 100 demo_curr = some c' ∧ c'.cpu_pct = 25 ∧
      c'.r_mib = 1 / 2 := by
  have hm : demo_p ∈ demo_prev := by simp [demo_p, demo_prev]
  obtain ⟨c', hc', _, _, _, hrm, _, _, hex, _⟩ :=
    rate_formulas demo_prev demo_curr demo_p 2 100 demo_prev_sorted demo_prev_distinct hm
      rfl demo_curr_in_range (by norm_num) (by norm_num)
  refine ⟨demo_prev_sorted, demo_prev_distinct, hm, rfl, demo_curr_in_range, by norm_num,
    by norm_num, c', hc', ?_, ?_⟩
  · exact hex rfl rfl (by norm_num [spec_delta, demo_curr, demo_p, blank_sample])
  · rw [hrm]
    norm_num [spec_delta, demo_curr, demo_p, blank_sample]

/-- Witness for C4 with the insertion sort on `demo_threads`. -/
theorem aggregate_by_tgid_sum_preserving_witness :
    qsort_contract qsort_model ∧
    ((aggregate_by_tgid qsort_model demo_threads).map (fun r => r.tgid)).count 100 = 1 ∧
    (aggregate_by_tgid qsort_model demo_threads).map (fun r => (r.tgid, r.cpu_pct)) =
      [(100, 8), (200, 1)] := by
  have h := aggregate_by_tgid_sum_preserving qsort_model qsort_model_contract demo_threads
  refine ⟨qsort_model_contract, ?_, h.2.2.2⟩
  rw [h.1 100]
  simp [demo_threads, blank_sample]

/-- Witness for C6 on `demo_prev`: key 11 is found, key 12 is not. -/
theorem find_prev_correct_witness :
    demo_prev.Pairwise (fun a b => a.key ≤ b.key) ∧
    (∃ r, find_prev demo_prev 11 = some r ∧ r.key = 11 ∧ r ∈ demo_prev) ∧
    find_prev demo_prev 12 = none := by
  refine ⟨demo_prev_sorted, ?_, ?_⟩
  · exact (find_prev_correct demo_prev 11 demo_prev_sorted).1
      (by simp [demo_prev, blank_sample, make_key, U64])
  · exact (find_prev_correct demo_prev 12 demo_prev_sorted).2.mpr
      (by simp [demo_prev, blank_sample, make_key, U64])

/-- Witness for C7 with the insertion sort on `demo_view`. -/
theorem render_sort_descending_witness :
    qsort_contract qsort_model ∧
    demo_view.map (fun s => s.cpu_pct) = [1, 9, 5] ∧
    (render_sort qsort_model SORT_CPU demo_view).map (fun s => s.cpu_pct) = [9, 5, 1] := by
  have hv : demo_view.map (fun s => s.cpu_pct) = [1, 9, 5] := by
    simp [demo_view, blank_sample]
  exact ⟨qsort_model_contract, hv,
    (render_sort_descending qsort_model qsort_model_contract SORT_CPU demo_view).2.2.2 hv⟩

/-- Witness for C9 on `demo_state` with 5 seconds remaining: key `1` selects
the pid column, key `q` leads to `cleanup`. -/
theorem key_dispatch_effects_witness :
    (0 : ℚ) < 5 ∧
    idle_wait demo_state 5 (some 49) =
      control.stay { demo_state with sort_col := SORT_PID, dirty := true } ∧
    idle_wait demo_state 5 (some 113) = control.cleanup demo_state := by
  have h := key_dispatch_effects demo_state 5 (by norm_num)
  exact ⟨by norm_num, h.1, h.2.2.2.2.2.2.2.2.2.2.2.2.2.2.2.2.1⟩

/-- Witness for C10 with interval 5 and two equal timestamps. -/
theorem elapsed_dt_positive_witness :
    (0 : ℚ) < 5 ∧ 0 < elapsed_dt 5 10 10 ∧ elapsed_dt 5 10 10 = 5 := by
  have h := elapsed_dt_positive 5 10 10 (by norm_num)
  exact ⟨by norm_num, h.1, h.2.2.1 (by norm_num)⟩

/-- Every delivered key byte from 1 to 255 outside the handled ones leaves the
loop variables as they are and stays in the inner loop. -/
theorem other_keys_ignored (st : loop_state) (remain : ℚ) (hr : 0 < remain) (b : Nat)
    (h0 : 0 < b) (h255 : b < 256)
    (hk : b ∉ [113, 81, 116, 84, 49, 50, 51, 52, 53, 54, 1, 2, 3, 4, 5, 6]) :
    idle_wait st remain (some b) = control.stay st := by
  have hr2 : ¬ remain ≤ 0 := not_le.mpr hr
  have hb : b % 256 = b := Nat.mod_eq_of_lt h255
  simp only [List.mem_cons, List.mem_singleton, List.not_mem_nil, or_false, not_or] at hk
  obtain ⟨k1, k2, k3, k4, k5, k6, k7, k8, k9, k10, k11, k12, k13, k14, k15, k16⟩ := hk
  have c0 : ((b : Int) > 0) := by omega
  simp only [idle_wait, hr2, if_false, wait_for_input, hb, key_dispatch, c0, if_true]
  have e : ∀ n : Nat, b ≠ n → ¬ ((b : Int) = (n : Int)) := fun n hn h => hn (by exact_mod_cast h)
  have d1 := e 113 k1
  have d2 := e 81 k2
  have d3 := e 116 k3
  have d4 := e 84 k4
  have d5 := e 49 k5
  have d6 := e 50 k6
  have d7 := e 51 k7
  have d8 := e 52 k8
  have d9 := e 53 k9
  have d10 := e 54 k10
  have d11 := e 1 k11
  have d12 := e 2 k12
  have d13 := e 3 k13
  have d14 := e 4 k14
  have d15 := e 5 k15
  have d16 := e 6 k16
  simp only [Nat.cast_ofNat, Nat.cast_one] at d1 d2 d3 d4 d5 d6 d7 d8 d9 d10 d11 d12 d13 d14 d15 d16
  simp [d1, d2, d3, d4, d5, d6, d7, d8, d9, d10, d11, d12, d13, d14, d15, d16]

/-- What `qsort` with `cmp_key` returns: a rearrangement ordered by key. -/
theorem qsort_key_spec (qsort : (sample_t → sample_t → Int) → List sample_t → List sample_t)
    (hq : qsort_contract qsort) (l : List sample_t) :
    List.Perm (qsort cmp_key l) l ∧
      List.Pairwise (fun a b => a.key ≤ b.key) (qsort cmp_key l) := by
  obtain ⟨hp, hs⟩ := hq cmp_key l valid_cmp_key
  exact ⟨hp, hs.imp (fun h => (cmp_key_le _ _).mp h)⟩

/-- The key dispatch leaves both snapshot stores as they are. -/
theorem key_dispatch_frame (st : loop_state) (c : Int) :
    (key_dispatch st c).state.prev = st.prev ∧
      (key_dispatch st c).state.curr_raw = st.curr_raw := by
  unfold key_dispatch
  split_ifs <;> exact ⟨rfl, rfl⟩

/-- The wait of the inner loop leaves both snapshot stores as they are. -/
theorem idle_wait_frame (st : loop_state) (remain : ℚ) (delivered : Option Nat) :
    (idle_wait st remain delivered).state.prev = st.prev ∧
      (idle_wait st remain delivered).state.curr_raw = st.curr_raw := by
  unfold idle_wait
  split
  · exact ⟨rfl, rfl⟩
  · exact key_dispatch_frame st _

/-- The redraw leaves both snapshot stores as they are. -/
theorem redraw_frame (qsort : (sample_t → sample_t → Int) → List sample_t → List sample_t)
    (st : loop_state) :
    (redraw qsort st).prev = st.prev ∧ (redraw qsort st).curr_raw = st.curr_raw := by
  unfold redraw
  split <;> exact ⟨rfl, rfl⟩

/-- The inner loop leaves both snapshot stores as they are. -/
theorem inner_loop_frame (qsort : (sample_t → sample_t → Int) → List sample_t → List sample_t) :
    ∀ (events : List (ℚ × Option Nat)) (st : loop_state),
      (inner_loop qsort st events).state.prev = st.prev ∧
        (inner_loop qsort st events).state.curr_raw = st.curr_raw
  | [], st => by
    unfold inner_loop
    exact redraw_frame qsort st
  | (remain, delivered) :: rest, st => by
    unfold inner_loop
    have h1 := idle_wait_frame (redraw qsort st) remain delivered
    have h2 := redraw_frame qsort st
    cases hw : idle_wait (redraw qsort st) remain delivered with
    | stay st1 =>
      rw [hw] at h1
      have ih := inner_loop_frame qsort rest st1
      simp only
      exact ⟨ih.1.trans (h1.1.trans h2.1), ih.2.trans (h1.2.trans h2.2)⟩
    | sampling st1 =>
      rw [hw] at h1
      exact ⟨h1.1.trans h2.1, h1.2.trans h2.2⟩
    | cleanup st1 =>
      rw [hw] at h1
      exact ⟨h1.1.trans h2.1, h1.2.trans h2.2⟩

/-- The rate loop returns, record by record, what `rate_step` makes of the
collected records. -/
theorem rate_pass_forall (prev : List sample_t) (dt : ℚ) (hz : Int) :
    ∀ (raw rated : List sample_t), rate_pass prev dt hz raw = some rated →
      List.Forall₂ (fun r c => rate_step prev dt hz c = some r) rated raw
  | [], rated, h => by
    unfold rate_pass at h
    cases h
    exact List.Forall₂.nil
  | c :: rest, rated, h => by
    unfold rate_pass at h
    cases h1 : rate_step prev dt hz c with
    | none => rw [h1] at h; cases h
    | some c1 =>
      rw [h1] at h
      simp only at h
      cases h2 : rate_pass prev dt hz rest with
      | none => rw [h2] at h; cases h
      | some r =>
        rw [h2] at h
        cases h
        exact List.Forall₂.cons h1 (rate_pass_forall prev dt hz rest r h2)

/-- With nonzero divisors the rate loop has a result for every current store. -/
theorem rate_pass_defined (prev : List sample_t) (dt : ℚ) (hz : Int)
    (hdt : dt ≠ 0) (hhz : hz ≠ 0) :
    ∀ raw : List sample_t, ∃ rated, rate_pass prev dt hz raw = some rated
  | [] => ⟨[], rfl⟩
  | c :: rest => by
    obtain ⟨r, hr⟩ := rate_pass_defined prev dt hz hdt hhz rest
    have h1 : ∃ c1, rate_step prev dt hz c = some c1 := by
      unfold rate_step
      rw [apply_rates_eq _ _ _ _ hdt hhz]
      exact ⟨_, rfl⟩
    obtain ⟨c1, hc1⟩ := h1
    refine ⟨c1 :: r, ?_⟩
    unfold rate_pass
    rw [hc1, hr]

/-- A cycle that returns to the top of the loop has collected a store, run the
rate loop on it against the old `prev`, and hands over that store sorted with
`cmp_key`; `t_prev` becomes the clock reading of the cycle. -/
theorem main_cycle_next (qsort : (sample_t → sample_t → Int) → List sample_t → List sample_t)
    (interval : ℚ) (hz : Int) (st : loop_state) (t_prev : ℚ) (i : cycle_input)
    (st1 : loop_state) (t1 : ℚ)
    (h : main_cycle qsort interval hz st t_prev i = some (cycle_result.next st1 t1)) :
    ∃ raw rated, i.collected = some raw ∧
      rate_pass st.prev (elapsed_dt interval t_prev i.t_curr) hz raw = some rated ∧
      st1.prev = qsort cmp_key rated ∧ t1 = i.t_curr := by
  unfold main_cycle at h
  cases hc : i.collected with
  | none => rw [hc] at h; simp at h
  | some raw =>
    rw [hc] at h
    simp only at h
    cases hr : rate_pass st.prev (elapsed_dt interval t_prev i.t_curr) hz raw with
    | none => rw [hr] at h; simp at h
    | some rated =>
      rw [hr] at h
      simp only at h
      have hf := inner_loop_frame qsort i.events
        { st with curr_raw := rated, curr_proc := aggregate_by_tgid qsort rated, dirty := true }
      cases hl : inner_loop qsort
          { st with curr_raw := rated, curr_proc := aggregate_by_tgid qsort rated, dirty := true }
          i.events with
      | quit st2 => rw [hl] at h; simp at h
      | timer st2 =>
        rw [hl] at h hf
        simp only [Option.some.injEq, cycle_result.next.injEq] at h
        obtain ⟨h1, h2⟩ := h
        have hcr : st2.curr_raw = rated := hf.2
        refine ⟨raw, rated, rfl, hr, ?_, h2.symm⟩
        rw [← h1, hcr]

/-- The outer loop run from loop variables whose `prev` is ordered by key
reaches the top of the loop only with `prev` ordered by key. -/
theorem main_run_sorted (qsort : (sample_t → sample_t → Int) → List sample_t → List sample_t)
    (hq : qsort_contract qsort) (interval : ℚ) (hz : Int) :
    ∀ (inputs : List cycle_input) (st : loop_state) (t : ℚ) (st1 : loop_state) (t1 : ℚ),
      st.prev.Pairwise (fun a b => a.key ≤ b.key) →
      main_run qsort interval hz st t inputs = some (cycle_result.next st1 t1) →
      st1.prev.Pairwise (fun a b => a.key ≤ b.key)
  | [], st, t, st1, t1, hs, h => by
    unfold main_run at h
    simp only [Option.some.injEq, cycle_result.next.injEq] at h
    rw [← h.1]
    exact hs
  | i :: rest, st, t, st1, t1, _, h => by
    unfold main_run at h
    cases hc : main_cycle qsort interval hz st t i with
    | none => rw [hc] at h; simp at h
    | some r =>
      cases r with
      | stop st2 => rw [hc] at h; simp at h
      | next st2 t2 =>
        rw [hc] at h
        simp only at h
        obtain ⟨raw, rated, _, _, hp, _⟩ := main_cycle_next qsort interval hz st t i st2 t2 hc
        have hs2 : st2.prev.Pairwise (fun a b => a.key ≤ b.key) := by
          rw [hp]
          exact (qsort_key_spec qsort hq rated).2
        exact main_run_sorted qsort hq interval hz rest st2 t2 st1 t1 hs2 h

/-- With a positive interval and a nonzero tick rate every cycle has a result. -/
theorem main_cycle_defined (qsort : (sample_t → sample_t → Int) → List sample_t → List sample_t)
    (interval : ℚ) (hz : Int) (hi : 0 < interval) (hhz : hz ≠ 0)
    (st : loop_state) (t_prev : ℚ) (i : cycle_input) :
    ∃ r, main_cycle qsort interval hz st t_prev i = some r := by
  unfold main_cycle
  cases hc : i.collected with
  | none => exact ⟨_, rfl⟩
  | some raw =>
    simp only
    have hdt : elapsed_dt interval t_prev i.t_curr ≠ 0 := by
      unfold elapsed_dt
      simp only
      split
      · exact ne_of_gt hi
      · rename_i h
        exact ne_of_gt (not_le.mp h)
    obtain ⟨rated, hr⟩ := rate_pass_defined st.prev _ hz hdt hhz raw
    rw [hr]
    simp only
    cases inner_loop qsort
        { st with curr_raw := rated, curr_proc := aggregate_by_tgid qsort rated, dirty := true }
        i.events with
    | quit st2 => exact ⟨_, rfl⟩
    | timer st2 => exact ⟨_, rfl⟩

/-- C11: for every `qsort` meeting the C contract, the previous store is
ordered by key whenever the main loop is at the top of a cycle, which is where
the rate loop calls `find_prev` on it: the start of `main` sorts the first
collection with `cmp_key` (same records); every state reached from there at
the top of the loop has `prev` ordered by key; and a cycle that returns to the
top hands over as `prev` the store collected in that cycle, with the rate
fields written by the rate loop against the old `prev`, rearranged into key
order (same multiset of records).  With a positive interval and a nonzero tick
rate every cycle has a result. -/
theorem prev_sorted_at_every_lookup
    (qsort : (sample_t → sample_t → Int) → List sample_t → List sample_t)
    (hq : qsort_contract qsort) (interval : ℚ) (hz : Int) :
    (∀ (collected : List sample_t) (t0 : ℚ),
      List.Perm (main_init qsort collected t0).1.prev collected ∧
      (main_init qsort collected t0).1.prev.Pairwise (fun a b => a.key ≤ b.key)) ∧
    (∀ (collected : List sample_t) (t0 : ℚ) (inputs : List cycle_input)
        (st : loop_state) (t : ℚ),
      main_run qsort interval hz (main_init qsort collected t0).1
          (main_init qsort collected t0).2 inputs = some (cycle_result.next st t) →
      st.prev.Pairwise (fun a b => a.key ≤ b.key)) ∧
    (∀ (st : loop_state) (t_prev : ℚ) (i : cycle_input) (st1 : loop_state) (t1 : ℚ),
      main_cycle qsort interval hz st t_prev i = some (cycle_result.next st1 t1) →
      ∃ raw rated, i.collected = some raw ∧
        rate_pass st.prev (elapsed_dt interval t_prev i.t_curr) hz raw = some rated ∧
        List.Forall₂
          (fun r c => rate_step st.prev (elapsed_dt interval t_prev i.t_curr) hz c = some r)
          rated raw ∧
        List.Perm st1.prev rated ∧
        st1.prev.Pairwise (fun a b => a.key ≤ b.key)) ∧
    (0 < interval → hz ≠ 0 → ∀ (st : loop_state) (t_prev : ℚ) (i : cycle_input),
      ∃ r, main_cycle qsort interval hz st t_prev i = some r) := by
  refine ⟨?_, ?_, ?_, ?_⟩
  · intro collected t0
    exact qsort_key_spec qsort hq collected
  · intro collected t0 inputs st t h
    exact main_run_sorted qsort hq interval hz inputs _ _ st t
      (qsort_key_spec qsort hq collected).2 h
  · intro st t_prev i st1 t1 h
    obtain ⟨raw, rated, hc, hr, hp, _⟩ := main_cycle_next qsort interval hz st t_prev i st1 t1 h
    refine ⟨raw, rated, hc, hr, rate_pass_forall _ _ _ raw rated hr, ?_, ?_⟩
    · rw [hp]
      exact (qsort_key_spec qsort hq rated).1
    · rw [hp]
      exact (qsort_key_spec qsort hq rated).2
  · intro hi hhz st t_prev i
    exact main_cycle_defined qsort interval hz hi hhz st t_prev i

/-- In the cycle `demo_cycle` the inner loop is left by `break`. -/
theorem demo_cycle_returns (st : loop_state) (t_prev : ℚ) :
    ∃ st1, main_cycle qsort_model 5 100 st t_prev demo_cycle =
      some (cycle_result.next st1 2) := by
  have hdt : elapsed_dt 5 t_prev 2 ≠ 0 := by
    unfold elapsed_dt
    simp only
    split
    · norm_num
    · rename_i h
      exact ne_of_gt (not_le.mp h)
  obtain ⟨rated, hr⟩ := rate_pass_defined st.prev (elapsed_dt 5 t_prev 2) 100 hdt (by decide)
    [demo_new, demo_curr]
  have h3 : ¬ ((3 : ℚ) ≤ 0) := by norm_num
  simp [main_cycle, demo_cycle, hr, inner_loop, idle_wait, key_dispatch, wait_for_input, h3]

/-- Witness for C11 with the insertion sort: the first collection
`demo_collected` is put in key order, and the run of one cycle `demo_cycle`
from there is back at the top of the loop with `prev` in key order. -/
theorem prev_sorted_at_every_lookup_witness :
    qsort_contract qsort_model ∧
    (main_init qsort_model demo_collected 0).1.prev.Pairwise (fun a b => a.key ≤ b.key) ∧
    ∃ st t, main_run qsort_model 5 100 (main_init qsort_model demo_collected 0).1
        (main_init qsort_model demo_collected 0).2 [demo_cycle] = some (cycle_result.next st t) ∧
      st.prev.Pairwise (fun a b => a.key ≤ b.key) := by
  have h := prev_sorted_at_every_lookup qsort_model qsort_model_contract 5 100
  obtain ⟨st1, h1⟩ := demo_cycle_returns (main_init qsort_model demo_collected 0).1
    (main_init qsort_model demo_collected 0).2
  have hrun : main_run qsort_model 5 100 (main_init qsort_model demo_collected 0).1
      (main_init qsort_model demo_collected 0).2 [demo_cycle] = some (cycle_result.next st1 2) := by
    simp [main_run, h1]
  exact ⟨qsort_model_contract, (h.1 demo_collected 0).2, st1, 2, hrun,
    h.2.1 demo_collected 0 [demo_cycle] st1 2 hrun⟩

end Kvmtop
